import Mathlib

set_option maxHeartbeats 1000000
set_option maxRecDepth 10000

/-!
Shallow embedding of the Mastermind solver core.

The source module exports `generateAllCodes`, `ALL_CODES`, `codeToString`,
`parseCodeString`, `feedbackFor`, `isValidFeedback`, `filterRemaining`,
`feedbackKey`, `recommendNextGuess` and `firstGuess`.  Pegs are the integers
1..6 and a code is a length-4 tuple of pegs; we embed codes as `List Nat`
together with the validity predicate `isCode`.  `Feedback` carries two
`number` fields in the source, so we embed them as `Int` (the validator
explicitly checks for negative values).
-/

/-- A peg value: one of 1..6 (the source type `Peg = 1 | 2 | 3 | 4 | 5 | 6`). -/
def isPeg (n : Nat) : Prop := 1 ≤ n ∧ n ≤ 6

instance (n : Nat) : Decidable (isPeg n) := by
  unfold isPeg; infer_instance

/-- A code: an ordered sequence of exactly 4 pegs (the source type
`Code = [Peg, Peg, Peg, Peg]`). -/
def isCode (c : List Nat) : Prop := c.length = 4 ∧ ∀ x ∈ c, isPeg x

instance (c : List Nat) : Decidable (isCode c) := by
  unfold isCode; infer_instance

/-- The source type `Feedback = { black: number; white: number }`. -/
structure Feedback where
  black : Int
  white : Int
deriving DecidableEq

/-- The source type `Step = { guess: Code; feedback: Feedback }`. -/
structure Step where
  guess : List Nat
  feedback : Feedback
deriving DecidableEq

/-- The list `[1, 2, 3, 4, 5, 6]` ranged over by each of the four nested
loops of `generateAllCodes` (`for (let a = 1; a <= 6; a++)`). -/
def pegRange : List Nat := List.range' 1 6

/-- `generateAllCodes`: the four nested loops push `[a, b, c, d]` with `d`
varying fastest and `a` slowest. -/
def generateAllCodes : List (List Nat) :=
  pegRange.flatMap (fun a =>
    pegRange.flatMap (fun b =>
      pegRange.flatMap (fun c =>
        pegRange.map (fun d => [a, b, c, d]))))

/-- `ALL_CODES = generateAllCodes()`. -/
def ALL_CODES : List (List Nat) := generateAllCodes

/-- `codeToString(code) = code.join("")`. -/
def codeToString (code : List Nat) : String :=
  String.join (code.map (fun n => toString n))

/-- One character of the regex class `[1-6]`. -/
def isCodeChar (ch : Char) : Bool :=
  decide ('1' ≤ ch) && decide (ch ≤ '6')

/-- `s.trim()`: remove whitespace from both ends of the string. -/
def jsTrim (s : String) : String :=
  ⟨(((s.toList.dropWhile Char.isWhitespace).reverse.dropWhile Char.isWhitespace).reverse)⟩

/-- `parseCodeString`: trim, test against `/^[1-6]{4}$/`, then map each
character to its numeric value (`Number(x)`); `null` becomes `none`. -/
def parseCodeString (s : String) : Option (List Nat) :=
  let t := jsTrim s
  if (t.length == 4) && t.toList.all isCodeChar then
    some (t.toList.map (fun ch => ch.toNat - 48))
  else none

/-- The position pairs `(secret[i], guess[i])` with `secret[i] === guess[i]`;
these contribute to `black` in the first loop of `feedbackFor`. -/
def matchedPairs (secret guess : List Nat) : List (Nat × Nat) :=
  (secret.zip guess).filter (fun p => p.1 == p.2)

/-- The position pairs with `secret[i] !== guess[i]`; the `else` branch of
the first loop of `feedbackFor` tallies these into the two count maps. -/
def unmatchedPairs (secret guess : List Nat) : List (Nat × Nat) :=
  (secret.zip guess).filter (fun p => !(p.1 == p.2))

/-- The multiset (as a list) of secret pegs at non-matching positions:
the contents of `secretCounts`. -/
def secretRem (secret guess : List Nat) : List Nat :=
  (unmatchedPairs secret guess).map Prod.fst

/-- The multiset (as a list) of guess pegs at non-matching positions:
the contents of `guessCounts`. -/
def guessRem (secret guess : List Nat) : List Nat :=
  (unmatchedPairs secret guess).map Prod.snd

/-- The `white` loop over the entries of `guessCounts`: for each key `peg`
of `guessCounts` (i.e. each distinct element of the guess-side remainder
list `gr`), add `min(sCount, gCount)`. -/
def whiteSum (sr gr : List Nat) : Nat :=
  (gr.dedup.map (fun peg => min (sr.count peg) (gr.count peg))).sum

/-- The `white` tally of `feedbackFor`, applied to the two remainder lists. -/
def whiteCount (secret guess : List Nat) : Nat :=
  whiteSum (secretRem secret guess) (guessRem secret guess)

/-- `feedbackFor(secret, guess)`. -/
def feedbackFor (secret guess : List Nat) : Feedback :=
  ⟨((matchedPairs secret guess).length : Int), ((whiteCount secret guess : Nat) : Int)⟩

/-- `isValidFeedback`, mirroring the three early-return checks. -/
def isValidFeedback (fb : Feedback) : Bool :=
  if fb.black < 0 || fb.white < 0 then false
  else if fb.black > 4 || fb.white > 4 then false
  else if fb.black + fb.white > 4 then false
  else true

/-- The predicate of the `remaining.filter` closure inside `filterRemaining`:
`fb.black === step.feedback.black && fb.white === step.feedback.white`. -/
def stepKeeps (secret : List Nat) (step : Step) : Bool :=
  let fb := feedbackFor secret step.guess
  fb.black == step.feedback.black && fb.white == step.feedback.white

/-- `filterRemaining(steps, candidates)`: apply each step's filter in order. -/
def filterRemaining : List Step → List (List Nat) → List (List Nat)
  | [], remaining => remaining
  | step :: rest, remaining =>
      filterRemaining rest (remaining.filter (fun secret => stepKeeps secret step))

/-- `feedbackKey(fb)`: the template string made of the two numbers. -/
def feedbackKey (fb : Feedback) : String :=
  toString fb.black ++ toString fb.white

/-- `partitions.set(k, (partitions.get(k) ?? 0) + 1)` on an insertion-ordered
map represented as an association list (a JS `Map` keeps the original
insertion position of an existing key). -/
def bumpKey : List (String × Nat) → String → List (String × Nat)
  | [], k => [(k, 1)]
  | (k0, v) :: rest, k =>
      if k0 = k then (k0, v + 1) :: rest else (k0, v) :: bumpKey rest k

/-- The inner loop of `recommendNextGuess` that fills `partitions` for one
candidate guess, iterating over `remaining` in order. -/
def partitionCounts (remaining : List (List Nat)) (guess : List Nat) : List (String × Nat) :=
  remaining.foldl (fun parts secret => bumpKey parts (feedbackKey (feedbackFor secret guess))) []

/-- `w < bestScore` where `bestScore` may be `Infinity` (`none`). -/
def ltInf (w : Nat) : Option Nat → Bool
  | none => true
  | some b => w < b

/-- The `for (const v of partitions.values())` loop with its early
`break` once `worst >= bestScore`; the update `if (v > worst) worst = v`
happens before the break test on every iteration. -/
def prunedWorst : List Nat → Nat → Option Nat → Nat
  | [], worst, _ => worst
  | v :: rest, worst, bestScore =>
      let worst2 := if worst < v then v else worst
      if !(ltInf worst2 bestScore) then worst2 else prunedWorst rest worst2 bestScore

/-- JS string comparison `a < b`: lexicographic comparison of the two
character sequences by code unit. -/
def charListLt : List Char → List Char → Bool
  | [], [] => false
  | [], _ :: _ => true
  | _ :: _, [] => false
  | a :: x, b :: y =>
      if a.toNat < b.toNat then true
      else if a = b then charListLt x y else false

/-- JS `<` on strings. -/
def strLt (a b : String) : Bool := charListLt a.toList b.toList

/-- The mutable scan state of `recommendNextGuess`: `bestGuess`, `bestScore`
(`none` is the initial `Infinity`) and `bestIsRemaining`. -/
structure ScanState where
  bestGuess : List Nat
  bestScore : Option Nat
  bestIsRemaining : Bool
deriving DecidableEq

/-- The update of the scan state after one guess's `worst` is known:
the `worst < bestScore` branch, then the `worst === bestScore` tie branch
with its two tie-break rules. -/
def updateBest (remainingSet : List String) (st : ScanState) (guess : List Nat)
    (worst : Nat) : ScanState :=
  let isInRemaining := remainingSet.contains (codeToString guess)
  if ltInf worst st.bestScore then ⟨guess, some worst, isInRemaining⟩
  else if some worst = st.bestScore then
    if isInRemaining && !st.bestIsRemaining then ⟨guess, st.bestScore, true⟩
    else if isInRemaining == st.bestIsRemaining then
      if strLt (codeToString guess) (codeToString st.bestGuess) then
        ⟨guess, st.bestScore, st.bestIsRemaining⟩
      else st
    else st
  else st

/-- The outer `for (const guess of allGuesses)` loop. -/
def scanGuesses (remaining : List (List Nat)) (remainingSet : List String) :
    ScanState → List (List Nat) → ScanState
  | st, [] => st
  | st, guess :: rest =>
      let parts := partitionCounts remaining guess
      let worst := prunedWorst (parts.map Prod.snd) 0 st.bestScore
      scanGuesses remaining remainingSet (updateBest remainingSet st guess worst) rest

/-- `recommendNextGuess(remaining, allGuesses)`: the two degenerate early
returns, then the minimax scan starting from `bestGuess = [1,1,2,2]`,
`bestScore = Infinity`, `bestIsRemaining = false`. -/
def recommendNextGuess (remaining allGuesses : List (List Nat)) : List Nat :=
  match remaining with
  | [] => [1, 1, 2, 2]
  | [only] => only
  | _ =>
      (scanGuesses remaining (remaining.map codeToString)
        ⟨[1, 1, 2, 2], none, false⟩ allGuesses).bestGuess

/-- `firstGuess() = [1, 1, 2, 2]`. -/
def firstGuess : List Nat := [1, 1, 2, 2]

/-- Boolean strict lexicographic comparison of two symbol sequences
(earlier positions are more significant). -/
def lexLtBool : List Nat → List Nat → Bool
  | [], [] => false
  | [], _ :: _ => true
  | _ :: _, [] => false
  | a :: x, b :: y => if a < b then true else if a = b then lexLtBool x y else false

/-- Boolean check that consecutive elements of a list of codes are in
strictly increasing lexicographic order. -/
def sortedChain : List (List Nat) → Bool
  | [] => true
  | [_] => true
  | x :: y :: rest => lexLtBool x y && sortedChain (y :: rest)

/-- The worst-case partition size of a guess, computed without pruning:
the maximum over all groups of the partition of `remaining` induced by the
feedback against `guess`.  This is the quantity `worst(g)` of the spec. -/
def worstOf (remaining : List (List Nat)) (guess : List Nat) : Nat :=
  ((partitionCounts remaining guess).map Prod.snd).foldl max 0

/-- The outer loop of the recommender without the early `break`: each
guess's `worst` is its full (unpruned) worst-case partition size. -/
def scanGuessesFull (remaining : List (List Nat)) (remainingSet : List String) :
    ScanState → List (List Nat) → ScanState
  | st, [] => st
  | st, guess :: rest =>
      scanGuessesFull remaining remainingSet
        (updateBest remainingSet st guess (worstOf remaining guess)) rest

/-- `recommendNextGuess` with the pruned inner loop replaced by the full
(unpruned) evaluation of every guess's worst-case partition size. -/
def recommendNextGuessUnpruned (remaining allGuesses : List (List Nat)) : List Nat :=
  match remaining with
  | [] => [1, 1, 2, 2]
  | [only] => only
  | _ =>
      (scanGuessesFull remaining (remaining.map codeToString)
        ⟨[1, 1, 2, 2], none, false⟩ allGuesses).bestGuess

/-- A concrete `remaining` list exhibiting the pruning early-exit: its
partition under the guess `[1,1,1,1]` has group sizes `2, 3` in insertion
order, so the pruned value loop stops at 2. -/
def pruneRemaining : List (List Nat) :=
  [[2, 2, 2, 2], [2, 2, 2, 3], [1, 2, 2, 2], [2, 1, 2, 2], [2, 2, 1, 2]]

/-- A concrete `allGuesses` list: `[2,2,1,3]` partitions `pruneRemaining`
with worst group 2; `[1,1,1,1]` has worst group 3. -/
def pruneGuesses : List (List Nat) :=
  [[2, 2, 1, 3], [1, 1, 1, 1]]

/-! ## Helper lemmas about the feedback computation -/

lemma zip_swap_eq (s g : List Nat) :
    g.zip s = (s.zip g).map Prod.swap := (List.zip_swap s g).symm

lemma beq_symm (x y : Nat) : (x == y) = (y == x) := by
  by_cases h : x = y
  · simp [h]
  · simp [h, Ne.symm h]

lemma matchedPairs_swap (s g : List Nat) :
    matchedPairs g s = (matchedPairs s g).map Prod.swap := by
  unfold matchedPairs
  rw [zip_swap_eq, List.filter_map]
  congr 1
  apply List.filter_congr
  intro p _
  simp only [Function.comp_apply, Prod.fst_swap, Prod.snd_swap]
  exact beq_symm p.2 p.1

lemma unmatchedPairs_swap (s g : List Nat) :
    unmatchedPairs g s = (unmatchedPairs s g).map Prod.swap := by
  unfold unmatchedPairs
  rw [zip_swap_eq, List.filter_map]
  congr 1
  apply List.filter_congr
  intro p _
  simp only [Function.comp_apply, Prod.fst_swap, Prod.snd_swap]
  rw [beq_symm p.2 p.1]

lemma secretRem_swap (s g : List Nat) : secretRem g s = guessRem s g := by
  unfold secretRem guessRem
  rw [unmatchedPairs_swap, List.map_map]
  rfl

lemma guessRem_swap (s g : List Nat) : guessRem g s = secretRem s g := by
  unfold secretRem guessRem
  rw [unmatchedPairs_swap, List.map_map]
  rfl

lemma sum_dedup_map (l : List Nat) (f : Nat → Nat) :
    (l.dedup.map f).sum = ∑ p in l.toFinset, f p := by
  have h1 : l.dedup.toFinset = l.toFinset :=
    List.toFinset.ext (fun x => List.mem_dedup)
  rw [← h1, List.sum_toFinset f (List.nodup_dedup l)]

lemma whiteSum_eq_sum_toFinset (sr gr : List Nat) :
    whiteSum sr gr = ∑ p in gr.toFinset, min (sr.count p) (gr.count p) := by
  rw [whiteSum, sum_dedup_map]

lemma whiteSum_eq_sum_union (sr gr : List Nat) :
    whiteSum sr gr = ∑ p in sr.toFinset ∪ gr.toFinset, min (sr.count p) (gr.count p) := by
  rw [whiteSum_eq_sum_toFinset]
  apply Finset.sum_subset Finset.subset_union_right
  intro x _ hx
  have hcount : gr.count x = 0 := by
    rw [List.count_eq_zero]
    intro hmem
    exact hx (List.mem_toFinset.mpr hmem)
  simp [hcount]

lemma whiteSum_comm (sr gr : List Nat) : whiteSum sr gr = whiteSum gr sr := by
  rw [whiteSum_eq_sum_union, whiteSum_eq_sum_union, Finset.union_comm]
  exact Finset.sum_congr rfl (fun x _ => Nat.min_comm _ _)

lemma whiteSum_le_length (sr gr : List Nat) : whiteSum sr gr ≤ gr.length := by
  rw [whiteSum_eq_sum_toFinset]
  calc ∑ p in gr.toFinset, min (sr.count p) (gr.count p)
      ≤ ∑ p in gr.toFinset, gr.count p :=
        Finset.sum_le_sum (fun p _ => Nat.min_le_right _ _)
    _ = gr.length := List.sum_toFinset_count_eq_length gr

lemma matched_add_unmatched (s g : List Nat) :
    (matchedPairs s g).length + (unmatchedPairs s g).length = (s.zip g).length := by
  unfold matchedPairs unmatchedPairs
  exact (List.length_eq_length_filter_add (fun p : Nat × Nat => p.1 == p.2)).symm

lemma whiteCount_le (s g : List Nat) :
    whiteCount s g ≤ (unmatchedPairs s g).length := by
  have h := whiteSum_le_length (secretRem s g) (guessRem s g)
  rw [whiteCount]
  calc whiteSum (secretRem s g) (guessRem s g) ≤ (guessRem s g).length := h
    _ = (unmatchedPairs s g).length := by rw [guessRem, List.length_map]

lemma eq_of_zip_forall_eq :
    ∀ {s g : List Nat}, s.length = g.length → (∀ p ∈ s.zip g, p.1 = p.2) → s = g
  | [], [], _, _ => rfl
  | [], _ :: _, h, _ => by simp at h
  | _ :: _, [], h, _ => by simp at h
  | a :: s, b :: g, h, hall => by
      have hhead : a = b := hall (a, b) (by simp)
      have htail : s = g := by
        apply eq_of_zip_forall_eq (by simpa using h)
        intro p hp
        exact hall p (by simp [hp])
      rw [hhead, htail]

lemma zip_self_forall (s : List Nat) : ∀ p ∈ s.zip s, p.1 = p.2 := by
  induction s with
  | nil => simp
  | cons a t ih =>
      intro p hp
      rcases List.mem_cons.mp hp with h | h
      · rw [h]
      · exact ih p h

/-! ## Claims about the feedback engine -/

/-- C2: for every pair of codes `(secret, guess)`, `feedbackFor(secret,
guess).black` is at most 4, and it equals 4 exactly when `secret = guess`. -/
theorem feedback_black_le_four_iff_eq (secret guess : List Nat)
    (hs : isCode secret) (hg : isCode guess) :
    (feedbackFor secret guess).black ≤ 4
    ∧ ((feedbackFor secret guess).black = 4 ↔ secret = guess) := by
  have hzip : (secret.zip guess).length = 4 := by
    rw [List.length_zip, hs.1, hg.1]; decide
  have hble : (matchedPairs secret guess).length ≤ 4 := by
    calc (matchedPairs secret guess).length ≤ (secret.zip guess).length :=
          List.length_filter_le _ _
      _ = 4 := hzip
  refine ⟨by simp only [feedbackFor]; exact_mod_cast hble, ?_⟩
  simp only [feedbackFor]
  rw [show ((4 : Int) = ((4 : Nat) : Int)) from rfl, Int.ofNat_inj]
  constructor
  · intro h4
    have hall : ∀ p ∈ secret.zip guess, (fun p : Nat × Nat => p.1 == p.2) p = true := by
      apply List.filter_length_eq_length.mp
      rw [show (List.filter (fun p : Nat × Nat => p.1 == p.2) (secret.zip guess))
            = matchedPairs secret guess from rfl, h4, hzip]
    apply eq_of_zip_forall_eq (by rw [hs.1, hg.1])
    intro p hp
    simpa using hall p hp
  · intro heq
    subst heq
    have hfil : matchedPairs secret secret = secret.zip secret := by
      apply List.filter_eq_self.mpr
      intro p hp
      simpa using zip_self_forall secret p hp
    rw [hfil, List.length_zip, hs.1]; decide

/-- Witness for `feedback_black_le_four_iff_eq` at a concrete input. -/
theorem feedback_black_le_four_iff_eq_witness :
    isCode [1, 2, 3, 4] ∧ isCode [1, 1, 2, 2]
    ∧ ((feedbackFor [1, 2, 3, 4] [1, 1, 2, 2]).black ≤ 4
       ∧ ((feedbackFor [1, 2, 3, 4] [1, 1, 2, 2]).black = 4 ↔ [1, 2, 3, 4] = [1, 1, 2, 2])) :=
  ⟨by decide, by decide,
    feedback_black_le_four_iff_eq [1, 2, 3, 4] [1, 1, 2, 2] (by decide) (by decide)⟩

/-- C3: the feedback score is symmetric in its two arguments. -/
theorem feedback_symm (a b : List Nat) : feedbackFor a b = feedbackFor b a := by
  unfold feedbackFor
  have hblack : (matchedPairs a b).length = (matchedPairs b a).length := by
    rw [matchedPairs_swap a b, List.length_map]
  have hwhite : whiteCount a b = whiteCount b a := by
    unfold whiteCount
    rw [secretRem_swap a b, guessRem_swap a b, whiteSum_comm]
  rw [hblack, hwhite]

/-- C10: the feedback produced by `feedbackFor` on codes always satisfies
`isValidFeedback`. -/
theorem feedback_isValid (secret guess : List Nat)
    (hs : isCode secret) (hg : isCode guess) :
    isValidFeedback (feedbackFor secret guess) = true := by
  have hzip : (secret.zip guess).length = 4 := by
    rw [List.length_zip, hs.1, hg.1]; decide
  have hsum : (matchedPairs secret guess).length + (unmatchedPairs secret guess).length = 4 :=
    (matched_add_unmatched secret guess).trans hzip
  have hw : whiteCount secret guess ≤ (unmatchedPairs secret guess).length :=
    whiteCount_le secret guess
  simp only [isValidFeedback, feedbackFor]
  split_ifs with h1 h2 h3
  · exfalso
    simp only [Bool.or_eq_true, decide_eq_true_eq] at h1
    rcases h1 with h | h <;> omega
  · exfalso
    simp only [Bool.or_eq_true, decide_eq_true_eq] at h2
    rcases h2 with h | h <;> omega
  · exfalso
    simp only [decide_eq_true_eq] at h3
    omega
  · rfl

/-- Witness for `feedback_isValid` at a concrete input. -/
theorem feedback_isValid_witness :
    isCode [2, 2, 3, 3] ∧ isCode [1, 2, 2, 3]
    ∧ isValidFeedback (feedbackFor [2, 2, 3, 3] [1, 2, 2, 3]) = true :=
  ⟨by decide, by decide, feedback_isValid [2, 2, 3, 3] [1, 2, 2, 3] (by decide) (by decide)⟩

/-! ## Claims about the constraint filter -/

lemma filterRemaining_append (h1 h2 : List Step) (U : List (List Nat)) :
    filterRemaining (h1 ++ h2) U = filterRemaining h2 (filterRemaining h1 U) := by
  induction h1 generalizing U with
  | nil => rfl
  | cons s rest ih =>
      simp only [List.cons_append, filterRemaining]
      exact ih _

/-- C4: appending one more step to the history can only shrink the result of
`filterRemaining`: every code surviving the longer history also survives the
shorter one. -/
theorem filterRemaining_monotone (history : List Step) (step : Step)
    (U : List (List Nat)) (c : List Nat)
    (hc : c ∈ filterRemaining (history ++ [step]) U) :
    c ∈ filterRemaining history U := by
  rw [filterRemaining_append] at hc
  simp only [filterRemaining] at hc
  exact (List.mem_filter.mp hc).1

/-- Witness for `filterRemaining_monotone` at a concrete input. -/
theorem filterRemaining_monotone_witness :
    [3, 4, 5, 6] ∈ filterRemaining ([] ++ [⟨[1, 1, 2, 2], ⟨0, 0⟩⟩])
        [[3, 4, 5, 6], [1, 1, 2, 2]]
    ∧ [3, 4, 5, 6] ∈ filterRemaining [] [[3, 4, 5, 6], [1, 1, 2, 2]] :=
  ⟨by decide,
    filterRemaining_monotone [] ⟨[1, 1, 2, 2], ⟨0, 0⟩⟩ [[3, 4, 5, 6], [1, 1, 2, 2]]
      [3, 4, 5, 6] (by decide)⟩

lemma stepKeeps_self (secret g : List Nat) :
    stepKeeps secret ⟨g, feedbackFor secret g⟩ = true := by
  simp [stepKeeps]

lemma mem_filterRemaining_scored (guesses : List (List Nat)) :
    ∀ (cands : List (List Nat)) (secret : List Nat), secret ∈ cands →
      secret ∈ filterRemaining
        (guesses.map (fun g => ⟨g, feedbackFor secret g⟩)) cands := by
  induction guesses with
  | nil => intro cands secret h; exact h
  | cons g rest ih =>
      intro cands secret h
      simp only [List.map_cons, filterRemaining]
      exact ih _ secret (List.mem_filter.mpr ⟨h, stepKeeps_self secret g⟩)

lemma mem_pegRange {n : Nat} : n ∈ pegRange ↔ 1 ≤ n ∧ n ≤ 6 := by
  rw [pegRange, List.mem_range'_1]
  omega

lemma mem_generateAllCodes {c : List Nat} : c ∈ generateAllCodes ↔ isCode c := by
  simp only [generateAllCodes, List.mem_flatMap, List.mem_map, mem_pegRange]
  constructor
  · rintro ⟨a, ha, b, hb, x, hx, d, hd, rfl⟩
    refine ⟨rfl, ?_⟩
    intro y hy
    rcases List.mem_cons.mp hy with h | hy
    · rw [h]; exact ha
    rcases List.mem_cons.mp hy with h | hy
    · rw [h]; exact hb
    rcases List.mem_cons.mp hy with h | hy
    · rw [h]; exact hx
    rcases List.mem_cons.mp hy with h | hy
    · rw [h]; exact hd
    · simp at hy
  · rintro ⟨hlen, hmem⟩
    match c, hlen with
    | [a, b, x, d], _ =>
        refine ⟨a, hmem a (by simp), b, hmem b (by simp), x, hmem x (by simp),
          d, hmem d (by simp), rfl⟩

/-- C5: if the history is built by scoring the true `secret` against each
guess, then `secret` survives `filterRemaining` over the full code space. -/
theorem secret_mem_filterRemaining (secret : List Nat) (guesses : List (List Nat))
    (hs : isCode secret) :
    secret ∈ filterRemaining
      (guesses.map (fun g => ⟨g, feedbackFor secret g⟩)) ALL_CODES := by
  exact mem_filterRemaining_scored guesses ALL_CODES secret (mem_generateAllCodes.mpr hs)

/-- Witness for `secret_mem_filterRemaining` at a concrete input. -/
theorem secret_mem_filterRemaining_witness :
    isCode [3, 4, 5, 6]
    ∧ [3, 4, 5, 6] ∈ filterRemaining
        ([[1, 1, 2, 2]].map (fun g => ⟨g, feedbackFor [3, 4, 5, 6] g⟩)) ALL_CODES :=
  ⟨by decide, secret_mem_filterRemaining [3, 4, 5, 6] [[1, 1, 2, 2]] (by decide)⟩

/-- C6: the documented opening scenario.  Guess `[1,1,2,2]` against secret
`[3,4,5,6]` scores `(black = 0, white = 0)`, and filtering the full 1296-code
space by that single observation leaves exactly the codes containing no
occurrence of symbol 1 or symbol 2 — 256 codes. -/
theorem opening_scenario :
    feedbackFor [3, 4, 5, 6] [1, 1, 2, 2] = ⟨0, 0⟩
    ∧ filterRemaining [⟨[1, 1, 2, 2], ⟨0, 0⟩⟩] ALL_CODES
        = ALL_CODES.filter (fun c => decide (1 ∉ c ∧ 2 ∉ c))
    ∧ (filterRemaining [⟨[1, 1, 2, 2], ⟨0, 0⟩⟩] ALL_CODES).length = 256 := by
  refine ⟨by decide, by decide, by decide⟩

/-- C7: `recommendNextGuess` on an empty `remaining` returns the fixed
fallback `[1,1,2,2]` (the code `firstGuess` returns) whatever `allGuesses`
is, and on a singleton `remaining` returns the sole element, whatever
`allGuesses` is. -/
theorem recommend_degenerate :
    (∀ allGuesses : List (List Nat),
        recommendNextGuess [] allGuesses = [1, 1, 2, 2]
        ∧ recommendNextGuess [] allGuesses = firstGuess)
    ∧ (∀ (only : List Nat) (allGuesses : List (List Nat)),
        recommendNextGuess [only] allGuesses = only) :=
  ⟨fun _ => ⟨rfl, rfl⟩, fun _ _ => rfl⟩

/-! ## Claims about the code-space enumerator -/

lemma lexLtBool_iff_lex : ∀ x y : List Nat,
    lexLtBool x y = true ↔ List.Lex (fun a b : Nat => a < b) x y
  | [], [] => by
      constructor
      · intro h; simp [lexLtBool] at h
      · intro h; cases h
  | [], b :: y => by
      constructor
      · intro _; exact List.Lex.nil
      · intro _; rfl
  | a :: x, [] => by
      constructor
      · intro h; simp [lexLtBool] at h
      · intro h; exact absurd h (List.Lex.not_nil_right _ _)
  | a :: x, b :: y => by
      simp only [lexLtBool]
      split_ifs with hab heq
      · exact iff_of_true rfl (List.Lex.rel hab)
      · subst heq
        rw [lexLtBool_iff_lex x y]
        constructor
        · exact List.Lex.cons
        · intro h
          cases h with
          | cons h => exact h
          | rel h => exact absurd h hab
      · refine iff_of_false (by simp) ?_
        intro h
        cases h with
        | cons h => exact heq rfl
        | rel h => exact hab h

lemma sortedChain_chain' : ∀ l : List (List Nat), sortedChain l = true →
    List.Chain' (fun x y => List.Lex (fun a b : Nat => a < b) x y) l
  | [], _ => List.chain'_nil
  | [x], _ => List.chain'_singleton x
  | x :: y :: rest, h => by
      rw [sortedChain, Bool.and_eq_true] at h
      rw [List.chain'_cons]
      exact ⟨(lexLtBool_iff_lex x y).mp h.1, sortedChain_chain' (y :: rest) h.2⟩

lemma lex_ne {x y : List Nat} (h : List.Lex (fun a b : Nat => a < b) x y) : x ≠ y := by
  intro heq
  subst heq
  exact (irrefl_of (List.Lex (fun a b : Nat => a < b)) x) h

/-- C8: `generateAllCodes` (and `ALL_CODES`) is exactly the list of all 1296
codes over symbols 1..6, without duplicates, in strictly increasing
lexicographic order by symbol value (position 1 most significant, i.e.
varying slowest). -/
theorem generateAllCodes_spec :
    ALL_CODES = generateAllCodes
    ∧ generateAllCodes.length = 1296
    ∧ generateAllCodes.Nodup
    ∧ (∀ c, c ∈ generateAllCodes ↔ isCode c)
    ∧ List.Pairwise (fun x y => List.Lex (fun a b : Nat => a < b) x y) generateAllCodes := by
  have hchain : sortedChain generateAllCodes = true := by decide
  have hpair : List.Pairwise (fun x y => List.Lex (fun a b : Nat => a < b) x y)
      generateAllCodes :=
    List.chain'_iff_pairwise.mp (sortedChain_chain' _ hchain)
  exact ⟨rfl, by decide, List.Pairwise.imp (fun h => lex_ne h) hpair,
    fun c => mem_generateAllCodes, hpair⟩

/-! ## Claims about parsing and formatting -/

/-- C9: `parseCodeString` succeeds exactly when the whitespace-trimmed input
is four characters each in `'1'..'6'` (and returns the `null` sentinel
otherwise), and parsing is a left inverse of `codeToString` on codes. -/
theorem parse_format_spec :
    (∀ s : String, (parseCodeString s).isSome = true ↔
        ((jsTrim s).length = 4 ∧ ∀ ch ∈ (jsTrim s).toList, '1' ≤ ch ∧ ch ≤ '6'))
    ∧ (∀ c : List Nat, isCode c → parseCodeString (codeToString c) = some c) := by
  constructor
  · intro s
    simp only [parseCodeString]
    split_ifs with h
    · rw [Bool.and_eq_true, beq_iff_eq, List.all_eq_true] at h
      refine iff_of_true rfl ⟨h.1, ?_⟩
      intro ch hch
      have hc := h.2 ch hch
      simpa only [isCodeChar, Bool.and_eq_true, decide_eq_true_eq] using hc
    · rw [Bool.and_eq_true, beq_iff_eq, List.all_eq_true] at h
      refine iff_of_false (by simp) ?_
      rintro ⟨hlen, hall⟩
      exact h ⟨hlen, fun ch hch => by
        simp only [isCodeChar, Bool.and_eq_true, decide_eq_true_eq]
        exact hall ch hch⟩
  · intro c hc
    have hmem : c ∈ ALL_CODES := mem_generateAllCodes.mpr hc
    have hall : ALL_CODES.all
        (fun c => decide (parseCodeString (codeToString c) = some c)) = true := by decide
    exact of_decide_eq_true (List.all_eq_true.mp hall c hmem)

/-- Witness for `parse_format_spec` at a concrete input. -/
theorem parse_format_spec_witness :
    isCode [6, 1, 4, 2]
    ∧ parseCodeString (codeToString [6, 1, 4, 2]) = some [6, 1, 4, 2] :=
  ⟨by decide, parse_format_spec.2 [6, 1, 4, 2] (by decide)⟩

/-! ## The guess recommender's pruning -/

/-- C1 fails on the code: on `pruneRemaining` (5 elements) and
`pruneGuesses` (2 guesses) the function returns `[1,1,1,1]`, whose true
worst-case partition size is 3, although `[2,2,1,3] ∈ allGuesses` attains
worst-case 2; the unpruned evaluation returns `[2,2,1,3]`.  The early
`break` at `worst >= bestScore` can leave `worst` truncated at exactly
`bestScore`, after which the `worst === bestScore` tie-break branch adopts a
strictly worse guess. -/
theorem recommend_prune_changes_result :
    2 ≤ pruneRemaining.length
    ∧ pruneGuesses ≠ []
    ∧ recommendNextGuess pruneRemaining pruneGuesses = [1, 1, 1, 1]
    ∧ worstOf pruneRemaining [1, 1, 1, 1] = 3
    ∧ worstOf pruneRemaining [2, 2, 1, 3] = 2
    ∧ [2, 2, 1, 3] ∈ pruneGuesses
    ∧ recommendNextGuessUnpruned pruneRemaining pruneGuesses = [2, 2, 1, 3] := by
  refine ⟨by decide, by decide, by decide, by decide, by decide, by decide, by decide⟩
